import Mathlib

/-!
Verification of `fs/memfs/tree.go` (package `memfs`): a parser that rebuilds
an in-memory filesystem tree from a textual tree listing (Unix `tree` output
or tab-indented text).

The embedding is byte-faithful at the rune level: Go `[]byte` slices of the
input are modelled as `List Char` (every byte sequence the parsers search for
— `"─"`, `"│"`, `" "`, `" "`, `"\t"` — is a single rune, and UTF-8 is
self-synchronizing for these, so rune-level indices and counts agree with the
byte-level ones on all decodable inputs up to monotone reindexing).

Go `Directory` values are mutable maps that are aliased by the `glob` stack,
so the builder state is modelled with an explicit heap: a directory is an
address into a list of association lists, and `Directory{}` literals are
fresh allocations.  A `glob[n]` access on an out-of-range index is a Go
panic; the loop therefore returns an `Option`, with `none` marking a panic.
-/

set_option autoImplicit false

namespace Memfs

/-- A value stored in a directory entry: Go inserts either `File{}` or a
`Directory` (which is a map reference, here a heap address). -/
inductive Node where
  | file : Node
  | ref : Nat → Node
deriving DecidableEq, Repr

/-- Contents of one `memfs.Directory`: a map from name to node, modelled as
an association list whose insert overwrites in place. -/
abbrev Dir := List (List Char × Node)

/-- The store of all allocated `Directory` maps; an address is an index. -/
abbrev Heap := List Dir

/-- Map insert: replace the binding of `k` if present, else append. -/
def dirInsert (d : Dir) (k : List Char) (v : Node) : Dir :=
  match d with
  | [] => [(k, v)]
  | (k', v') :: rest =>
    if k' = k then (k, v) :: rest else (k', v') :: dirInsert rest k v

/-- Map lookup. -/
def dirLookup (d : Dir) (k : List Char) : Option Node :=
  match d with
  | [] => none
  | (k', v') :: rest => if k' = k then some v' else dirLookup rest k

/-- Dereference a heap address (addresses produced by the builder are always
in range; the default is never observed). -/
def heapGet (h : Heap) (a : Nat) : Dir := (h.get? a).getD []

/-- Overwrite the directory at an address. -/
def heapSet (h : Heap) (a : Nat) (d : Dir) : Heap := h.set a d

/-- `dir[name] = value` on the directory at address `a`. -/
def heapInsert (h : Heap) (a : Nat) (k : List Char) (v : Node) : Heap :=
  heapSet h a (dirInsert (heapGet h a) k v)

/-- Errors returned by the builder (`io.ErrUnexpectedEOF`, the
`fmt.Errorf("invalid syntax: %q", p)` of the parsers, and the path errors of
the filesystem collaborator). -/
inductive Err where
  | unexpectedEOF : Err
  | invalidSyntax (line : List Char) : Err
  | pathError (p : List Char) : Err
deriving DecidableEq, Repr

/-- `type CustomTree func(line []byte) (depth int, name []byte, err error)`.
Both built-in strategies return non-negative depths, so `depth` is a `Nat`. -/
def CustomTree : Type := List Char → Nat × List Char × Option Err

/-- Number of occurrences of a rune (`bytes.Count` with a one-rune sep). -/
def countChar (c : Char) : List Char → Nat
  | [] => 0
  | x :: xs => (if x = c then 1 else 0) + countChar c xs

/-- `bytes.Index` with a one-rune sep: index of the first occurrence. -/
def indexOfChar (c : Char) : List Char → Option Nat
  | [] => none
  | x :: xs => if x = c then some 0 else (indexOfChar c xs).map (· + 1)

/-- `bytes.LastIndex` with a one-rune sep: index of the last occurrence. -/
def lastIndexOfChar (c : Char) : List Char → Option Nat
  | [] => none
  | x :: xs =>
    match lastIndexOfChar c xs with
    | some n => some (n + 1)
    | none => if x = c then some 0 else none

/-- `boxHorizontal = []byte("─")` (U+2500). -/
def boxHorizontal : Char := Char.ofNat 0x2500

/-- `boxVertical = []byte("│")` (U+2502). -/
def boxVertical : Char := Char.ofNat 0x2502

/-- `boxSpace = []byte{' '}`. -/
def boxSpace : Char := ' '

/-- `boxHardSpace = []byte{' '}`. -/
def boxHardSpace : Char := Char.ofNat 0xA0

/-- `unicode.IsSpace` on the runes the inputs can contain (Latin-1 range:
space, tab, newline, vertical tab, form feed, carriage return, NEL, NBSP). -/
def goIsSpace (c : Char) : Bool :=
  c = ' ' || c = '\t' || c = '\n' || c = Char.ofNat 0x0B || c = Char.ofNat 0x0C ||
  c = '\x0d' || c = Char.ofNat 0x85 || c = Char.ofNat 0xA0

/-- `bytes.TrimRightFunc(p, unicode.IsSpace)`. -/
def trimRightSpace (p : List Char) : List Char :=
  (p.reverse.dropWhile goIsSpace).reverse

/-- `bytes.TrimSpace`. -/
def trimSpace (p : List Char) : List Char :=
  trimRightSpace (p.dropWhile goIsSpace)

/-- `bytes.TrimRight(p, "/")`: remove all trailing `'/'` runes. -/
def trimTrailingSlashes (p : List Char) : List Char :=
  (p.reverse.dropWhile (fun c => c = '/')).reverse

/-- The `Unix` strategy (tree.go lines 45-61): depth is the count of space,
non-breaking-space and `│` runes divided by 4; the name is what follows the
first space after the last `─`; missing `─` or missing space is a syntax
error (on the second error return Go has already assigned `name = p[n:]`). -/
def Unix : CustomTree := fun p =>
  let depth := (countChar boxSpace p + countChar boxHardSpace p +
    countChar boxVertical p) / 4
  match lastIndexOfChar boxHorizontal p with
  | none => (depth, [], some (Err.invalidSyntax p))
  | some n =>
    let name := p.drop n
    match indexOfChar boxSpace name with
    | none => (depth, name, some (Err.invalidSyntax p))
    | some m => (depth, name.drop (m + 1), none)

/-- The `Tab` strategy (tree.go lines 62-66): depth is `bytes.Count(p, "\t")`
— the number of tabs anywhere in the line — and the name drops that many
leading runes.  It never errors. -/
def Tab : CustomTree := fun p =>
  let depth := countChar '\t' p
  (depth, p.drop depth, none)

/-- `func max(i, j int) int` (tree.go lines 24-29), on Go `int`s. -/
def goMax (i j : Int) : Int := if i > j then i else j

/-- `bufio.ReadBytes('\n')` on a stream with no transport errors: the first
component is the data up to and including the delimiter (all remaining data
when the delimiter is missing); the second is the unread remainder.  The read
reports `io.EOF` exactly when the returned line does not end in `'\n'`. -/
def readLine : List Char → List Char × List Char
  | [] => ([], [])
  | c :: cs =>
    if c = '\n' then ([c], cs)
    else
      let (l, r) := readLine cs
      (c :: l, r)

/-- The builder state carried across loop iterations (tree.go lines 72-80):
the heap of allocated directories, the address `dir` of the directory being
populated, the `glob` stack of addresses (index 0 is the bottom — Go
appends at the end), and the buffered previous line's `(depth, name)`. -/
structure LoopState where
  heap : Heap
  dir : Nat
  glob : List Nat
  prevDepth : Nat
  prevName : List Char
deriving DecidableEq, Repr

/-- Node classification (tree.go lines 115-123): a buffered name ending in
`'/'` denotes a directory and is stripped of its trailing slashes
(`bytes.TrimRight(prevName, "/")`); anything else denotes a file. -/
def classify (prevName : List Char) : List Char × Bool :=
  if prevName.getLast? = some '/' then (trimTrailingSlashes prevName, true)
  else (prevName, false)

/-- Insert the classified `value` under `nm` in the directory at `a`:
`Directory{}` is a fresh allocation at the end of the heap, `File{}` is a
plain leaf. -/
def insertValue (h : Heap) (a : Nat) (nm : List Char) (isDir : Bool) : Heap :=
  if isDir then heapInsert h a nm (Node.ref h.length) ++ [[]]
  else heapInsert h a nm Node.file

/-- One execution of tree.go lines 111-134: skip when `prevName` is empty,
otherwise classify the buffered node and dispatch on `depth` versus
`prevDepth`.  In the `depth < prevDepth` case Go runs
`n := max(len(glob)+depth-prevDepth, 0)` followed by
`dir[name], dir, glob = value, glob[n], glob[:n]`; the `glob[n]` read panics
when the stack is empty, which is the `none` result. -/
def stepInsert (s : LoopState) (depth : Nat) : Option LoopState :=
  if s.prevName.isEmpty then some s
  else
    let (nm, isDir) := classify s.prevName
    if s.prevDepth < depth then
      -- case depth > prevDepth: dir[name], glob, dir = d, append(glob, dir), d
      let d := s.heap.length
      some { s with heap := heapInsert s.heap s.dir nm (Node.ref d) ++ [[]],
                    glob := s.glob ++ [s.dir], dir := d }
    else if depth = s.prevDepth then
      -- case depth == prevDepth: dir[name] = value
      some { s with heap := insertValue s.heap s.dir nm isDir }
    else
      -- case depth < prevDepth
      let n := (goMax ((s.glob.length : Int) + (depth : Int) - (s.prevDepth : Int)) 0).toNat
      match s.glob.get? n with
      | none => none
      | some d' =>
        some { s with heap := insertValue s.heap s.dir nm isDir,
                      dir := d', glob := s.glob.take n }

/-- The scan loop of tree.go lines 103-144, with fuel (the caller passes
`input.length + 1`, which always suffices since every non-returning
iteration consumes at least one rune).  A whitespace-only (or empty) line
discards the rest of the stream (`io.Copy(ioutil.Discard, buf)`), sets
`err, line = io.EOF, nil`, inserts the buffered node (the loop's `depth`
variable still holds `prevDepth` there), and returns through the
`len(line) == 0` branch, where `err == io.EOF` is downgraded to `nil`.  On a
non-blank line the parser's error is assigned to `err` but `line` is
non-empty, so the iteration falls through to the next read, which overwrites
`err`: parse errors never escape the loop. -/
def loopGo (ct : CustomTree) : Nat → List Char → LoopState → Option (Heap × Option Err)
  | 0, _, _ => none
  | fuel + 1, input, s =>
    let (line, rest) := readLine input
    if (trimSpace line).isEmpty then
      match stepInsert s s.prevDepth with
      | none => none
      | some s' => some (s'.heap, none)
    else
      let (depth, name, _perr) := ct (trimRightSpace line)
      match stepInsert s depth with
      | none => none
      | some s' => loopGo ct fuel rest { s' with prevDepth := depth, prevName := name }

/-- Split a path into its `'/'`-separated pieces. -/
def splitSegs : List Char → List (List Char)
  | [] => [[]]
  | c :: cs =>
    if c = '/' then [] :: splitSegs cs
    else
      match splitSegs cs with
      | [] => [[c]]
      | t :: ts => (c :: t) :: ts

/-- Modelled from the spec: the path normalization performed by the `memfs`
collaborator (`FS.MkdirAll` / `FS.lookup`, which live outside this core).
A path denotes its sequence of non-trivial segments; empty segments and `.`
segments resolve to the current directory, which is what makes the package's
documented `UnixTree` example (root line `.`) produce the top-level
directory. -/
def splitPath (p : List Char) : List (List Char) :=
  (splitSegs p).filter (fun s => !(s.isEmpty || s = ['.']))

/-- Modelled from the spec: `Tree.makeDirsAll(path, mode)` — "create a
directory and all missing ancestors; no-op if it exists" (§6).  Walking from
address `a`, an existing directory segment is entered, a missing segment is
allocated fresh, and a segment already bound to a file is a path error
(`none`). -/
def mkdirAll (h : Heap) (a : Nat) : List (List Char) → Option Heap
  | [] => some h
  | seg :: rest =>
    match dirLookup (heapGet h a) seg with
    | some (Node.ref b) => mkdirAll h b rest
    | some Node.file => none
    | none =>
      let b := h.length
      mkdirAll (heapInsert h a seg (Node.ref b) ++ [[]]) b rest

/-- Modelled from the spec: `Tree.lookupDirectory(path)` — "resolve a path
to its Directory node, failing if any segment is missing or is not a
directory" (§6). -/
def lookupDir (h : Heap) (a : Nat) : List (List Char) → Option Nat
  | [] => some a
  | seg :: rest =>
    match dirLookup (heapGet h a) seg with
    | some (Node.ref b) => lookupDir h b rest
    | _ => none

/-- The root-line handling of tree.go lines 90-101, given the first line as
returned by `readLine` (delimiter included).  The `len(line) == 1 &&
line[0] == '.'` fast path is kept although it is unreachable here: a first
line that survives the EOF check always ends in `'\n'` and so has length at
least 2.  A dot root therefore takes the path branch with `p = "."`, whose
modelled `MkdirAll`/`lookup` resolve to the top-level directory.  Errors
carry the heap in which they occurred, since `fs` is returned alongside. -/
def rootPhase (line : List Char) : Except (Heap × Err) (Heap × Nat) :=
  let h0 : Heap := [[]]
  if line = ['.'] then Except.ok (h0, 0)
  else
    let p := trimSpace line
    match mkdirAll h0 0 (splitPath p) with
    | none => Except.error (h0, Err.pathError p)
    | some h1 =>
      match lookupDir h1 0 (splitPath p) with
      | none => Except.error (h1, Err.pathError p)
      | some a => Except.ok (h1, a)

/-- The result of a build: `fs.Tree` is the directory at address `tree` in
`heap` (always address 0, allocated at tree.go line 73 and assigned at line
81 before anything can fail). -/
structure FS where
  tree : Nat
  heap : Heap
deriving DecidableEq, Repr

/-- `func (ct CustomTree) Tree(r io.Reader) (fs FS, err error)`
(tree.go lines 71-145).  `none` is a Go panic; otherwise the pair is the
returned `(fs, err)`.  The first read errors with `io.ErrUnexpectedEOF` when
it returns no data or reports `io.EOF` (`len(line) == 0 || err == io.EOF`),
i.e. exactly when the line does not end in the delimiter. -/
def Tree (ct : CustomTree) (input : List Char) : Option (FS × Option Err) :=
  let h0 : Heap := [[]]
  let (line, rest) := readLine input
  if line.getLast? = some '\n' then
    match rootPhase line with
    | Except.error e => some (⟨0, e.1⟩, some e.2)
    | Except.ok (h1, a) =>
      match loopGo ct (rest.length + 1) rest ⟨h1, a, [a], 0, []⟩ with
      | none => none
      | some (h, er) => some (⟨0, h⟩, er)
  else
    some (⟨0, h0⟩, some Err.unexpectedEOF)

/-- `func UnixTree(p []byte) (FS, error)` (tree.go lines 162-164). -/
def UnixTree (p : List Char) : Option (FS × Option Err) := Tree Unix p

/-- `func TabTree(p []byte) (FS, error)` (tree.go lines 180-182). -/
def TabTree (p : List Char) : Option (FS × Option Err) := Tree Tab p

/-- Observation helper: resolve a path of names to a node of the final heap
(used to compare builds independently of heap layout). -/
def resolve (h : Heap) (a : Nat) : List (List Char) → Option Node
  | [] => some (Node.ref a)
  | k :: rest =>
    match dirLookup (heapGet h a) k with
    | some (Node.ref b) => resolve h b rest
    | some Node.file => if rest.isEmpty then some Node.file else none
    | none => none

/-- The depth-delta fold exactly as claim C1 words it.  Descend and sibling
cases are as in the code; in the ascend case the stack is popped back by
`prevDepth - depth` levels, clamped so that it never pops below the root
(at least one element is kept), and the current directory becomes the
directory then at the top of the stack. -/
def specC1StepInsert (s : LoopState) (depth : Nat) : Option LoopState :=
  if s.prevName.isEmpty then some s
  else
    let (nm, isDir) := classify s.prevName
    if s.prevDepth < depth then
      let d := s.heap.length
      some { s with heap := heapInsert s.heap s.dir nm (Node.ref d) ++ [[]],
                    glob := s.glob ++ [s.dir], dir := d }
    else if depth = s.prevDepth then
      some { s with heap := insertValue s.heap s.dir nm isDir }
    else
      let n := Nat.max (s.glob.length - (s.prevDepth - depth)) 1
      let glob' := s.glob.take n
      match glob'.getLast? with
      | none => none
      | some d' =>
        some { s with heap := insertValue s.heap s.dir nm isDir,
                      dir := d', glob := glob' }

/-- The scan loop driven by claim C1's fold instead of the code's. -/
def specC1LoopGo (ct : CustomTree) : Nat → List Char → LoopState → Option (Heap × Option Err)
  | 0, _, _ => none
  | fuel + 1, input, s =>
    let (line, rest) := readLine input
    if (trimSpace line).isEmpty then
      match specC1StepInsert s s.prevDepth with
      | none => none
      | some s' => some (s'.heap, none)
    else
      let (depth, name, _perr) := ct (trimRightSpace line)
      match specC1StepInsert s depth with
      | none => none
      | some s' => specC1LoopGo ct fuel rest { s' with prevDepth := depth, prevName := name }

/-- The builder as described by claim C1 (root handling unchanged). -/
def specC1Tree (ct : CustomTree) (input : List Char) : Option (FS × Option Err) :=
  let h0 : Heap := [[]]
  let (line, rest) := readLine input
  if line.getLast? = some '\n' then
    match rootPhase line with
    | Except.error e => some (⟨0, e.1⟩, some e.2)
    | Except.ok (h1, a) =>
      match specC1LoopGo ct (rest.length + 1) rest ⟨h1, a, [a], 0, []⟩ with
      | none => none
      | some (h, er) => some (⟨0, h⟩, er)
  else
    some (⟨0, h0⟩, some Err.unexpectedEOF)

/-- The `Tab` strategy exactly as claim C7 words it: depth is the number of
tab characters prefixing the line, the name is the remainder after that
prefix, and no error is ever returned. -/
def specC7Tab : CustomTree := fun p =>
  let depth := (p.takeWhile (fun c => c = '\t')).length
  (depth, p.drop depth, none)

/-- The states the builder passes through inside the scan loop: the state
recorded after each iteration's insertion and buffer update (mirrors
`loopGo` step by step). -/
def loopTrace (ct : CustomTree) : Nat → List Char → LoopState → List LoopState
  | 0, _, _ => []
  | fuel + 1, input, s =>
    let (line, rest) := readLine input
    if (trimSpace line).isEmpty then
      match stepInsert s s.prevDepth with
      | none => []
      | some s' => [s']
    else
      let (depth, name, _perr) := ct (trimRightSpace line)
      match stepInsert s depth with
      | none => []
      | some s' =>
        let s2 := { s' with prevDepth := depth, prevName := name }
        s2 :: loopTrace ct fuel rest s2

/-- All builder states of one build from the moment the root directory is
pushed onto `glob` (tree.go line 102) onwards. -/
def buildTrace (ct : CustomTree) (input : List Char) : List LoopState :=
  let (line, rest) := readLine input
  if line.getLast? = some '\n' then
    match rootPhase line with
    | Except.error _ => []
    | Except.ok (h1, a) =>
      ⟨h1, a, [a], 0, []⟩ :: loopTrace ct (rest.length + 1) rest ⟨h1, a, [a], 0, []⟩
  else []

/-- The address pushed as the root of the build (the `dir` of tree.go line
102), or 0 when the build never reaches that point. -/
def rootAddr (input : List Char) : Nat :=
  let (line, _) := readLine input
  match rootPhase line with
  | Except.ok (_, a) => a
  | Except.error _ => 0

/-- The heap that creating the fresh path `segs` inside an empty tree is
expected to produce: address `i` holds the sole binding of segment `i` to
address `i + 1`, and the final address is an empty directory. -/
def chainFrom : Nat → List (List Char) → Heap
  | _, [] => [[]]
  | i, seg :: rest => [(seg, Node.ref (i + 1))] :: chainFrom (i + 1) rest

/-- `chainFrom` rooted at address 0. -/
def chainHeap (segs : List (List Char)) : Heap := chainFrom 0 segs

/-- Join segments with `'/'` separators (the shape of a slash-separated
root-declaration path). -/
def joinSegs : List (List Char) → List Char
  | [] => []
  | [s] => s
  | s :: rest => s ++ '/' :: joinSegs rest

/-- The invariant the `glob` stack actually maintains: whenever the stack is
nonempty its bottom element is the root pushed at tree.go line 102, and
whenever it is empty (possible after a clamped underflow pop) the current
directory is that root. -/
def InvC3 (r : Nat) (s : LoopState) : Prop :=
  (s.glob = [] → s.dir = r) ∧ (s.glob ≠ [] → s.glob.head? = some r)

instance (r : Nat) (s : LoopState) : Decidable (InvC3 r s) := by
  unfold InvC3; infer_instance

end Memfs

namespace Memfs

/-! ## Helper lemmas -/

theorem countChar_eq_count (c : Char) (l : List Char) : countChar c l = l.count c := by
  induction l with
  | nil => rfl
  | cons x xs ih =>
    simp only [countChar, List.count_cons, ih]
    by_cases h : x = c
    · simp [h, Nat.add_comm]
    · simp [h]

theorem readLine_no_newline (input : List Char) (h : '\n' ∉ input) :
    readLine input = (input, []) := by
  induction input with
  | nil => rfl
  | cons c cs ih =>
    simp only [List.mem_cons, not_or] at h
    simp [readLine, Ne.symm h.1, ih h.2]

theorem getLast?_ne_of_not_mem {l : List Char} (h : '\n' ∉ l) :
    l.getLast? ≠ some '\n' := by
  intro hc
  obtain ⟨hne, heq⟩ := List.mem_getLast?_eq_getLast hc
  exact h (heq ▸ List.getLast_mem hne)

theorem readLine_blank (ws rest : List Char) (h : ∀ c ∈ ws, c ≠ '\n') :
    readLine (ws ++ '\n' :: rest) = (ws ++ ['\n'], rest) := by
  induction ws with
  | nil => simp [readLine]
  | cons c cs ih =>
    have hc : c ≠ '\n' := h c (by simp)
    have ih' := ih (fun d hd => h d (by simp [hd]))
    simp [readLine, hc, ih']

theorem trimSpace_all_space (l : List Char) (h : ∀ c ∈ l, goIsSpace c = true) :
    trimSpace l = [] := by
  have h1 : l.dropWhile goIsSpace = [] := List.dropWhile_eq_nil_iff.mpr h
  have h2 : ([] : List Char).reverse.dropWhile goIsSpace = [] := rfl
  simp [trimSpace, trimRightSpace, h1]

theorem stepInsert_prevDepth (s : LoopState) :
    ∃ s', stepInsert s s.prevDepth = some s' := by
  rcases hcl : classify s.prevName with ⟨nm, isDir⟩
  by_cases he : s.prevName.isEmpty <;>
    simp [stepInsert, he, hcl]

theorem drop_length_takeWhile (f : Char → Bool) (l : List Char) :
    l.drop ((l.takeWhile f).length) = l.dropWhile f := by
  induction l with
  | nil => rfl
  | cons x xs ih =>
    by_cases hx : f x
    · simp [List.takeWhile_cons, List.dropWhile_cons, hx, ih]
    · simp [List.takeWhile_cons, List.dropWhile_cons, hx]

theorem tree_unexpectedEOF (ct : CustomTree) (input : List Char) (h : '\n' ∉ input) :
    Tree ct input = some (⟨0, [[]]⟩, some Err.unexpectedEOF) := by
  have hr := readLine_no_newline input h
  have hl := getLast?_ne_of_not_mem h
  simp [Tree, hr, hl]

/-! ## Claim theorems -/

/-- C2 (code bug): a line-parser syntax error on a non-blank body line does
NOT abort the build.  On `".\n└── a\nxxx\n└── b\n"` the `Unix` parser fails
on `"xxx"` (no `─` connector), yet the build returns the tree
`{a: File, b: File}` with a `nil` error: the error assigned at tree.go line
109 is overwritten by the next `ReadBytes` before anything inspects it, and
the loop's only `return` always downgrades its `err` (just set to `io.EOF`)
to `nil`. -/
theorem c2_error_swallowed_eval :
    Tree Unix ".\n└── a\nxxx\n└── b\n".data =
      some (⟨0, [[(['a'], Node.file), (['b'], Node.file)]]⟩, none)
    ∧ (Unix "xxx".data).2.2 = some (Err.invalidSyntax "xxx".data) := by
  exact ⟨by decide, by decide⟩

/-- C1 (counterexample): the claim's ascend rule — pop `prevDepth - depth`
levels clamped at the root and make the new top of the stack current — is
not what the code does (the code makes `glob[n]`, the element just popped,
current).  On the Tab input `".\na\n\tb\n\t\tc\n\td\n"` the code places `d`
inside `a` while the claim's fold places `d` at the root. -/
theorem c1_counterexample :
    ((Tree Tab ".\na\n\tb\n\t\tc\n\td\n".data).map
        (fun r => resolve r.1.heap r.1.tree [['a'], ['d']]) = some (some Node.file))
  ∧ ((specC1Tree Tab ".\na\n\tb\n\t\tc\n\td\n".data).map
        (fun r => resolve r.1.heap r.1.tree [['a'], ['d']]) = some none)
  ∧ ((specC1Tree Tab ".\na\n\tb\n\t\tc\n\td\n".data).map
        (fun r => resolve r.1.heap r.1.tree [['d']]) = some (some Node.file))
  ∧ Tree Tab ".\na\n\tb\n\t\tc\n\td\n".data ≠
      specC1Tree Tab ".\na\n\tb\n\t\tc\n\td\n".data := by
  exact ⟨by decide, by decide, by decide, by decide⟩

/-- C3 (counterexample): after the first descent the top of `glob` is the
parent, not the directory being populated (`".\na\n\tb\n"`), and a clamped
underflow pop empties the stack entirely, so its length is not always ≥ 1
(`".\n\t\t\t\t\ta\n\t\tb\n"`, whose first body line claims depth 5). -/
theorem c3_counterexample :
    (¬ ∀ s ∈ buildTrace Tab ".\na\n\tb\n".data, s.glob.getLast? = some s.dir)
  ∧ (¬ ∀ s ∈ buildTrace Tab ".\n\t\t\t\t\ta\n\t\tb\n".data, 1 ≤ s.glob.length) := by
  exact ⟨by decide, by decide⟩

/-- C7 (counterexample): on the right-trimmed line `"\ta\tb"` the code
returns depth 2 — `bytes.Count` counts every tab in the line, not just the
leading run — and name `"\tb"`, whereas the claim predicts depth 1 and name
`"a\tb"`. -/
theorem c7_counterexample :
    Tab ['\t', 'a', '\t', 'b'] ≠ specC7Tab ['\t', 'a', '\t', 'b']
    ∧ Tab ['\t', 'a', '\t', 'b'] = (2, ['\t', 'b'], none) := by
  exact ⟨by decide, by decide⟩

/-- C7 (amended): for every line, the Tab strategy returns depth equal to
the count of tab characters anywhere in the line, the name obtained by
stripping that many leading characters, and never an error; when every tab
of the line belongs to the leading run this coincides with the claim's
prefix-count reading. -/
theorem c7_tab_strategy (p : List Char) :
    Tab p = (p.count '\t', p.drop (p.count '\t'), (none : Option Err))
  ∧ ((∀ c ∈ p.drop ((p.takeWhile (fun c => c = '\t')).length), c ≠ '\t') →
      Tab p = specC7Tab p) := by
  constructor
  · simp [Tab, countChar_eq_count]
  · intro h
    have hsplit : p.takeWhile (fun c => c = '\t') ++ p.dropWhile (fun c => c = '\t') = p :=
      List.takeWhile_append_dropWhile _ _
    have hdrop : p.drop ((p.takeWhile (fun c => c = '\t')).length) =
        p.dropWhile (fun c => c = '\t') :=
      drop_length_takeWhile _ p
    have hnot : '\t' ∉ p.dropWhile (fun c => c = '\t') := by
      intro hc
      exact h '\t' (by rw [hdrop]; exact hc) rfl
    have hcount : countChar '\t' p = (p.takeWhile (fun c => c = '\t')).length := by
      rw [countChar_eq_count]
      conv_lhs => rw [← hsplit]
      rw [List.count_append]
      have h1 : (p.takeWhile (fun c => c = '\t')).count '\t' =
          (p.takeWhile (fun c => c = '\t')).length :=
        List.count_eq_length.mpr (fun b hb => by
          have hx := List.mem_takeWhile_imp hb
          simp at hx
          exact hx.symm)
      have h2 : (p.dropWhile (fun c => c = '\t')).count '\t' = 0 :=
        List.count_eq_zero.mpr hnot
      rw [h1, h2]
      omega
    simp [Tab, specC7Tab, hcount]

/-- C7 (witness): on a line whose only tab is the leading one both the code
and the claim's prefix-count reading agree. -/
theorem c7_witness : Tab ['\t', 'a'] = specC7Tab ['\t', 'a'] :=
  (c7_tab_strategy ['\t', 'a']).2 (by decide)

/-- C8: an entirely empty input — and more generally every stream whose
first `ReadBytes` hits end-of-stream, i.e. whose content has no newline —
makes the build fail with `io.ErrUnexpectedEOF`: no panic (the result is
`some`), and the error accompanies the untouched one-directory tree. -/
theorem c8_empty_input (ct : CustomTree) (input : List Char) (h : '\n' ∉ input) :
    Tree ct input = some (⟨0, [[]]⟩, some Err.unexpectedEOF) :=
  tree_unexpectedEOF ct input h

/-- C8 (witness): the entirely empty input. -/
theorem c8_witness : Tree Tab [] = some (⟨0, [[]]⟩, some Err.unexpectedEOF) :=
  c8_empty_input Tab [] (by decide)

/-- C10: an input with no newline at all returns `io.ErrUnexpectedEOF` even
when non-empty and otherwise a valid root line: a first read returning data
together with end-of-stream takes the same `len(line) == 0 || err == io.EOF`
branch as an empty read. -/
theorem c10_unterminated_root (ct : CustomTree) (input : List Char)
    (_hne : input ≠ []) (h : '\n' ∉ input) :
    Tree ct input = some (⟨0, [[]]⟩, some Err.unexpectedEOF) :=
  tree_unexpectedEOF ct input h

/-- C10 (witness): the single byte `'.'`, a valid root line except for the
missing newline. -/
theorem c10_witness : Tree Unix ['.'] = some (⟨0, [[]]⟩, some Err.unexpectedEOF) :=
  c10_unterminated_root Unix ['.'] (by decide) (by decide)

theorem goMax_toNat (len d pd : Nat) (hlt : d < pd) :
    (goMax ((len : Int) + (d : Int) - (pd : Int)) 0).toNat = len - (pd - d) := by
  simp only [goMax]
  split <;> omega

/-- C1 (amended): the fold does compare each line's depth to the previous
line's and inserts the buffered node as claimed in the descend and sibling
cases; in the ascend case, however, the new stack is the first
`len(glob) - (prevDepth - depth)` elements (clamped at the empty stack, not
at the root) and the new current directory is the element of the *original*
stack at that index — the lowest element popped — which is a Go panic when
the stack is empty. -/
theorem c1_fold (s : LoopState) (depth : Nat) (h : ¬ s.prevName.isEmpty) :
    (s.prevDepth < depth →
      stepInsert s depth = some { s with
        heap := heapInsert s.heap s.dir (classify s.prevName).1 (Node.ref s.heap.length) ++ [[]],
        glob := s.glob ++ [s.dir],
        dir := s.heap.length })
  ∧ (depth = s.prevDepth →
      stepInsert s depth = some { s with
        heap := insertValue s.heap s.dir (classify s.prevName).1 (classify s.prevName).2 })
  ∧ (depth < s.prevDepth →
      stepInsert s depth =
        match s.glob.get? (s.glob.length - (s.prevDepth - depth)) with
        | none => none
        | some d' => some { s with
            heap := insertValue s.heap s.dir (classify s.prevName).1 (classify s.prevName).2,
            dir := d',
            glob := s.glob.take (s.glob.length - (s.prevDepth - depth)) }) := by
  rcases hcl : classify s.prevName with ⟨nm, isDir⟩
  refine ⟨?_, ?_, ?_⟩
  · intro hlt
    simp [stepInsert, h, hcl, hlt]
  · intro heq
    simp [stepInsert, h, hcl, heq]
  · intro hlt
    have h1 : ¬ s.prevDepth < depth := by omega
    have h2 : ¬ depth = s.prevDepth := by omega
    simp [stepInsert, h, hcl, h1, h2, goMax_toNat s.glob.length depth s.prevDepth hlt]

/-- C1 (witness): a concrete ascend from buffered depth 2 to depth 1 on a
one-element stack pops to the empty stack and re-enters the root. -/
theorem c1_witness :
    stepInsert ⟨[[]], 0, [0], 2, ['x']⟩ 1 =
      some ⟨[[(['x'], Node.file)]], 0, [], 2, ['x']⟩ := by
  rw [(c1_fold ⟨[[]], 0, [0], 2, ['x']⟩ 1 (by decide)).2.2 (by decide)]
  decide

theorem head?_append_singleton {l : List Nat} (x : Nat) (h : l ≠ []) :
    (l ++ [x]).head? = l.head? := by
  cases l with
  | nil => exact absurd rfl h
  | cons a as => simp

theorem head?_take {l : List Nat} {n : Nat} (h : 1 ≤ n) :
    (l.take n).head? = l.head? := by
  cases l with
  | nil => simp
  | cons a as =>
    cases n with
    | zero => omega
    | succ m => simp

theorem stepInsert_inv {r : Nat} {s s' : LoopState} {d : Nat} (hI : InvC3 r s)
    (hs : stepInsert s d = some s') : InvC3 r s' := by
  rcases hcl : classify s.prevName with ⟨nm, isDir⟩
  by_cases he : s.prevName.isEmpty
  · simp [stepInsert, he] at hs
    exact hs ▸ hI
  · by_cases h1 : s.prevDepth < d
    · simp [stepInsert, he, hcl, h1] at hs
      subst hs
      constructor
      · intro hg
        simp at hg
      · intro _
        show (s.glob ++ [s.dir]).head? = some r
        by_cases hgl : s.glob = []
        · rw [hgl, hI.1 hgl]
          rfl
        · rw [head?_append_singleton _ hgl]
          exact hI.2 hgl
    · by_cases h2 : d = s.prevDepth
      · simp [stepInsert, he, hcl, h1, h2] at hs
        subst hs
        exact ⟨hI.1, hI.2⟩
      · rcases hg : s.glob[((goMax ((s.glob.length : Int) + (d : Int) -
            (s.prevDepth : Int)) 0).toNat)]? with _ | d'
        · simp [stepInsert, he, hcl, h1, h2, hg] at hs
        · simp [stepInsert, he, hcl, h1, h2, hg] at hs
          subst hs
          generalize hgen : (goMax ((s.glob.length : Int) + (d : Int) -
              (s.prevDepth : Int)) 0).toNat = n at hg ⊢
          have hlen : n < s.glob.length := by
            by_contra hc
            rw [List.getElem?_eq_none (by omega)] at hg
            exact Option.noConfusion hg
          have hne : s.glob ≠ [] := by
            intro hnil
            rw [hnil] at hlen
            simp at hlen
          constructor
          · intro hempty
            show d' = r
            have hempty' : s.glob.take n = [] := hempty
            have hn0 : n = 0 := by
              rcases List.take_eq_nil_iff.mp hempty' with h0 | h0
              · exact h0
              · exact absurd h0 hne
            rw [hn0] at hg
            have hhead : s.glob.head? = some d' := by
              rcases hgl2 : s.glob with _ | ⟨a, as⟩
              · exact absurd hgl2 hne
              · rw [hgl2] at hg
                simpa using hg
            have hr := hI.2 hne
            rw [hhead] at hr
            injection hr
          · intro hne2
            show (s.glob.take n).head? = some r
            have hn1 : 1 ≤ n := by
              by_contra hc
              have hn0 : n = 0 := by omega
              apply hne2
              show s.glob.take n = []
              rw [hn0]
              simp
            rw [head?_take hn1]
            exact hI.2 hne

theorem loopTrace_inv (ct : CustomTree) (r : Nat) : ∀ (fuel : Nat) (input : List Char)
    (s : LoopState), InvC3 r s → ∀ t ∈ loopTrace ct fuel input s, InvC3 r t := by
  intro fuel
  induction fuel with
  | zero =>
    intro input s hI t ht
    simp [loopTrace] at ht
  | succ f ih =>
    intro input s hI t ht
    rcases hrl : readLine input with ⟨line, rest⟩
    simp only [loopTrace, hrl] at ht
    by_cases hb : (trimSpace line).isEmpty
    · rw [if_pos hb] at ht
      rcases hst : stepInsert s s.prevDepth with _ | s'
      · rw [hst] at ht
        simp at ht
      · rw [hst] at ht
        simp at ht
        exact ht ▸ stepInsert_inv hI hst
    · rw [if_neg hb] at ht
      rcases hp : ct (trimRightSpace line) with ⟨depth, name, perr⟩
      rw [hp] at ht
      rcases hst : stepInsert s depth with _ | s'
      · rw [hst] at ht
        simp at ht
      · rw [hst] at ht
        simp only [List.mem_cons] at ht
        have hI' : InvC3 r s' := stepInsert_inv hI hst
        have hI2 : InvC3 r { s' with prevDepth := depth, prevName := name } :=
          ⟨hI'.1, hI'.2⟩
        rcases ht with rfl | ht'
        · exact hI2
        · exact ih rest _ hI2 t ht'

/-- C3 (amended): after the root directory is pushed, the stack of open
ancestor directories satisfies this instead: whenever it is nonempty its
bottom element is the root, and whenever it is empty (reachable via a
clamped underflow pop) the current directory is the root.  Neither
"length ≥ 1" nor "top = directory currently being populated" holds in
general. -/
theorem c3_stack_invariant (ct : CustomTree) (input : List Char) (s : LoopState)
    (hs : s ∈ buildTrace ct input) :
    (s.glob = [] → s.dir = rootAddr input) ∧
    (s.glob ≠ [] → s.glob.head? = some (rootAddr input)) := by
  rcases hrl : readLine input with ⟨line, rest⟩
  simp only [buildTrace, hrl] at hs
  by_cases hl : line.getLast? = some '\n'
  · rw [if_pos hl] at hs
    rcases hro : rootPhase line with e | pr
    · rw [hro] at hs
      simp at hs
    · rcases pr with ⟨h1, a⟩
      rw [hro] at hs
      have hroot : rootAddr input = a := by
        simp [rootAddr, hrl, hro]
      rw [hroot]
      have hI0 : InvC3 a ⟨h1, a, [a], 0, []⟩ :=
        ⟨fun h => by simp at h, fun _ => rfl⟩
      simp only [List.mem_cons] at hs
      rcases hs with rfl | hmem
      · exact hI0
      · exact loopTrace_inv ct a (rest.length + 1) rest _ hI0 s hmem
  · rw [if_neg hl] at hs
    simp at hs

/-- C3 (witness): the state just after the root push in the build of
`".\na\n"` satisfies the amended invariant. -/
theorem c3_witness :
    ((⟨[[]], 0, [0], 0, []⟩ : LoopState).glob = [] →
        (⟨[[]], 0, [0], 0, []⟩ : LoopState).dir = rootAddr ".\na\n".data)
  ∧ ((⟨[[]], 0, [0], 0, []⟩ : LoopState).glob ≠ [] →
        (⟨[[]], 0, [0], 0, []⟩ : LoopState).glob.head? = some (rootAddr ".\na\n".data)) :=
  c3_stack_invariant Tab ".\na\n".data ⟨[[]], 0, [0], 0, []⟩ (by decide)

/-- C9: a whitespace-only body line terminates the build successfully: the
loop inserts the buffered node into the state accumulated from the lines
before the blank one (an always-successful sibling insert, since the loop's
`depth` still equals `prevDepth` there), returns that tree with a `nil`
error, and the whole remaining stream `rest` is discarded unread — the
result does not depend on `rest` at all. -/
theorem c9_blank_line (ct : CustomTree) (fuel : Nat) (s : LoopState)
    (ws rest : List Char) (hws : ∀ c ∈ ws, goIsSpace c = true ∧ c ≠ '\n') :
    ∃ s', stepInsert s s.prevDepth = some s' ∧
      loopGo ct (fuel + 1) (ws ++ '\n' :: rest) s = some (s'.heap, none) := by
  obtain ⟨s', hst⟩ := stepInsert_prevDepth s
  refine ⟨s', hst, ?_⟩
  have hrl := readLine_blank ws rest (fun c hc => (hws c hc).2)
  have htrim : trimSpace (ws ++ ['\n']) = [] := by
    apply trimSpace_all_space
    intro c hc
    rcases List.mem_append.mp hc with h | h
    · exact (hws c h).1
    · simp at h
      rw [h]
      decide
  simp only [loopGo, hrl, htrim, List.isEmpty_nil, if_true, hst]

/-- C9 (witness): a single-space line after which `"z"` would follow is
never parsed; the pending file `a` is still inserted. -/
theorem c9_witness :
    ∃ s', stepInsert ⟨[[]], 0, [0], 0, ['a']⟩
        (⟨[[]], 0, [0], 0, ['a']⟩ : LoopState).prevDepth = some s' ∧
      loopGo Tab (0 + 1) ([' '] ++ '\n' :: ['z']) ⟨[[]], 0, [0], 0, ['a']⟩ =
        some (s'.heap, none) :=
  c9_blank_line Tab 0 ⟨[[]], 0, [0], 0, ['a']⟩ [' '] ['z'] (by decide)

theorem dirLookup_dirInsert_self (d0 : Dir) (k : List Char) (v : Node) :
    dirLookup (dirInsert d0 k v) k = some v := by
  induction d0 with
  | nil => simp [dirInsert, dirLookup]
  | cons p rest ih =>
    rcases p with ⟨k', v'⟩
    by_cases hk : k' = k
    · simp [dirInsert, dirLookup, hk]
    · simp [dirInsert, dirLookup, hk, ih]

theorem heapGet_append_left {h : Heap} {a : Nat} (ha : a < h.length) (h2 : Heap) :
    heapGet (h ++ h2) a = heapGet h a := by
  simp [heapGet, List.get?_eq_getElem?, List.getElem?_append_left ha]

theorem length_heapInsert (h : Heap) (a : Nat) (k : List Char) (v : Node) :
    (heapInsert h a k v).length = h.length := by
  simp [heapInsert, heapSet]

theorem heapGet_heapInsert_self {h : Heap} {a : Nat} (ha : a < h.length)
    (k : List Char) (v : Node) :
    heapGet (heapInsert h a k v) a = dirInsert (heapGet h a) k v := by
  simp [heapInsert, heapSet, heapGet, List.get?_eq_getElem?,
    List.getElem?_set_eq_of_lt _ ha]

theorem heap_dirAlloc_lookup {h : Heap} {a : Nat} (ha : a < h.length) (nm : List Char) :
    dirLookup (heapGet (heapInsert h a nm (Node.ref h.length) ++ [[]]) a) nm =
      some (Node.ref h.length) := by
  rw [heapGet_append_left (by rw [length_heapInsert]; exact ha)]
  rw [heapGet_heapInsert_self ha]
  exact dirLookup_dirInsert_self _ _ _

theorem heap_dirAlloc_fresh (h : Heap) (a : Nat) (nm : List Char) (v : Node) :
    heapGet (heapInsert h a nm v ++ [[]]) h.length = [] := by
  have hlen : (heapInsert h a nm v).length ≤ h.length := by
    rw [length_heapInsert]
  simp [heapGet, List.get?_eq_getElem?, List.getElem?_append_right hlen,
    length_heapInsert]

theorem heap_fileInsert_lookup {h : Heap} {a : Nat} (ha : a < h.length) (nm : List Char) :
    dirLookup (heapGet (heapInsert h a nm Node.file) a) nm = some Node.file := by
  rw [heapGet_heapInsert_self ha]
  exact dirLookup_dirInsert_self _ _ _

theorem trimTrailingSlashes_eq_self {p : List Char} (h : p.getLast? ≠ some '/') :
    trimTrailingSlashes p = p := by
  unfold trimTrailingSlashes
  rcases hrev : p.reverse with _ | ⟨x, xs⟩
  · simp at hrev
    rw [hrev]
    rfl
  · have hx : x ≠ '/' := by
      intro hx
      apply h
      rw [← List.head?_reverse, hrev, hx]
      rfl
    rw [List.dropWhile_cons_of_neg (by simp [hx])]
    rw [← hrev, List.reverse_reverse]

theorem classify_fst (p : List Char) : (classify p).1 = trimTrailingSlashes p := by
  by_cases hsl : p.getLast? = some '/'
  · simp [classify, hsl]
  · simp [classify, hsl, trimTrailingSlashes_eq_self hsl]

/-- C5: whenever the builder inserts the buffered previous node into the
current directory, a raw name ending in `'/'` goes in as an empty Directory
under the name with the trailing separator run stripped, any other name goes
in as a File, and a node whose following line is deeper goes in as an empty
Directory regardless of its suffix. -/
theorem c5_node_classification (s : LoopState) (depth : Nat) (s' : LoopState)
    (hdir : s.dir < s.heap.length) (hprev : ¬ s.prevName.isEmpty)
    (hs : stepInsert s depth = some s') :
    ((s.prevName.getLast? = some '/' ∨ s.prevDepth < depth) →
      ∃ a, dirLookup (heapGet s'.heap s.dir) (trimTrailingSlashes s.prevName) =
          some (Node.ref a) ∧ heapGet s'.heap a = [])
  ∧ (s.prevName.getLast? ≠ some '/' → depth ≤ s.prevDepth →
      dirLookup (heapGet s'.heap s.dir) s.prevName = some Node.file) := by
  rcases hcl : classify s.prevName with ⟨nm, isDir⟩
  have hnm : nm = trimTrailingSlashes s.prevName := by
    rw [← classify_fst s.prevName, hcl]
  constructor
  · intro hor
    by_cases h1 : s.prevDepth < depth
    · simp [stepInsert, hprev, hcl, h1] at hs
      subst hs
      refine ⟨s.heap.length, ?_, ?_⟩
      · rw [← hnm]
        exact heap_dirAlloc_lookup hdir nm
      · exact heap_dirAlloc_fresh s.heap s.dir nm _
    · have hsl : s.prevName.getLast? = some '/' := hor.resolve_right h1
      have hisdir : isDir = true := by
        have h2 : (classify s.prevName).2 = true := by simp [classify, hsl]
        rw [hcl] at h2
        exact h2
      subst hisdir
      by_cases h2 : depth = s.prevDepth
      · simp [stepInsert, hprev, hcl, h1, h2, insertValue] at hs
        subst hs
        refine ⟨s.heap.length, ?_, ?_⟩
        · rw [← hnm]
          exact heap_dirAlloc_lookup hdir nm
        · exact heap_dirAlloc_fresh s.heap s.dir nm _
      · rcases hg : s.glob[((goMax ((s.glob.length : Int) + (depth : Int) -
            (s.prevDepth : Int)) 0).toNat)]? with _ | d'
        · simp [stepInsert, hprev, hcl, h1, h2, hg] at hs
        · simp [stepInsert, hprev, hcl, h1, h2, hg, insertValue] at hs
          subst hs
          refine ⟨s.heap.length, ?_, ?_⟩
          · rw [← hnm]
            exact heap_dirAlloc_lookup hdir nm
          · exact heap_dirAlloc_fresh s.heap s.dir nm _
  · intro hsl hle
    have hisdir : isDir = false := by
      have h2 : (classify s.prevName).2 = false := by simp [classify, hsl]
      rw [hcl] at h2
      exact h2
    subst hisdir
    have hnm2 : nm = s.prevName := by
      rw [hnm, trimTrailingSlashes_eq_self hsl]
    have h1 : ¬ s.prevDepth < depth := by omega
    by_cases h2 : depth = s.prevDepth
    · simp [stepInsert, hprev, hcl, h1, h2, insertValue] at hs
      subst hs
      rw [← hnm2]
      exact heap_fileInsert_lookup hdir nm
    · rcases hg : s.glob[((goMax ((s.glob.length : Int) + (depth : Int) -
          (s.prevDepth : Int)) 0).toNat)]? with _ | d'
      · simp [stepInsert, hprev, hcl, h1, h2, hg] at hs
      · simp [stepInsert, hprev, hcl, h1, h2, hg, insertValue] at hs
        subst hs
        rw [← hnm2]
        exact heap_fileInsert_lookup hdir nm

/-- C5 (witness): inserting the buffered node `"d/"` as a sibling creates an
empty directory named `d`. -/
theorem c5_witness :
    ∃ a, dirLookup (heapGet (⟨[[(['d'], Node.ref 1)], []], 0, [0], 0,
          ['d', '/']⟩ : LoopState).heap 0)
        (trimTrailingSlashes ['d', '/']) = some (Node.ref a) ∧
      heapGet (⟨[[(['d'], Node.ref 1)], []], 0, [0], 0,
          ['d', '/']⟩ : LoopState).heap a = [] :=
  (c5_node_classification ⟨[[]], 0, [0], 0, ['d', '/']⟩ 0
      ⟨[[(['d'], Node.ref 1)], []], 0, [0], 0, ['d', '/']⟩
      (by decide) (by decide) (by decide)).1 (Or.inl (by decide))

theorem heapGet_append_length (pre : Heap) (x : Dir) (rest : Heap) :
    heapGet (pre ++ x :: rest) pre.length = x := by
  simp [heapGet, List.get?_eq_getElem?, List.getElem?_append_right (le_refl pre.length)]

theorem set_append_length (pre : Heap) (x y : Dir) (rest : Heap) :
    (pre ++ x :: rest).set pre.length y = pre ++ y :: rest := by
  induction pre with
  | nil => rfl
  | cons a as ih =>
    simp only [List.cons_append, List.length_cons, List.set_cons_succ, ih]

theorem mkdirAll_chain : ∀ (segs : List (List Char)) (pre : Heap),
    mkdirAll (pre ++ [[]]) pre.length segs = some (pre ++ chainFrom pre.length segs) := by
  intro segs
  induction segs with
  | nil =>
    intro pre
    rfl
  | cons seg rest ih =>
    intro pre
    have hget : heapGet (pre ++ [[]]) pre.length = [] :=
      heapGet_append_length pre [] []
    have hlen1 : (pre ++ ([[]] : Heap)).length = pre.length + 1 := by simp
    have hins : heapInsert (pre ++ [[]]) pre.length seg
        (Node.ref (pre.length + 1)) ++ [[]] =
        (pre ++ [[(seg, Node.ref (pre.length + 1))]]) ++ [[]] := by
      simp only [heapInsert, heapSet]
      rw [hget]
      simp only [dirInsert]
      rw [set_append_length pre [] [(seg, Node.ref (pre.length + 1))] []]
    simp only [mkdirAll, hget, dirLookup, hlen1]
    rw [hins]
    have hrec := ih (pre ++ [[(seg, Node.ref (pre.length + 1))]])
    simp only [List.length_append, List.length_cons, List.length_nil] at hrec
    rw [show pre.length + (0 + 1) = pre.length + 1 from by omega] at hrec
    rw [hrec]
    simp [chainFrom]

theorem lookupDir_chain : ∀ (segs : List (List Char)) (pre : Heap),
    lookupDir (pre ++ chainFrom pre.length segs) pre.length segs =
      some (pre.length + segs.length) := by
  intro segs
  induction segs with
  | nil =>
    intro pre
    simp [lookupDir, chainFrom]
  | cons seg rest ih =>
    intro pre
    have hget : heapGet (pre ++ [(seg, Node.ref (pre.length + 1))] ::
        chainFrom (pre.length + 1) rest) pre.length =
        [(seg, Node.ref (pre.length + 1))] :=
      heapGet_append_length _ _ _
    simp only [chainFrom, lookupDir]
    rw [hget]
    simp only [dirLookup]
    rw [if_pos trivial]
    show lookupDir (pre ++ [(seg, Node.ref (pre.length + 1))] ::
        chainFrom (pre.length + 1) rest) (pre.length + 1) rest =
      some (pre.length + (seg :: rest).length)
    have hrec := ih (pre ++ [[(seg, Node.ref (pre.length + 1))]])
    simp only [List.length_append, List.length_cons, List.length_nil,
      List.append_assoc, List.singleton_append] at hrec
    rw [show pre.length + (0 + 1) = pre.length + 1 from by omega] at hrec
    rw [hrec]
    congr 1
    simp
    omega

theorem splitSegs_no_slash {s : List Char} (h : '/' ∉ s) : splitSegs s = [s] := by
  induction s with
  | nil => rfl
  | cons c cs ih =>
    simp only [List.mem_cons, not_or] at h
    have hc : ¬ c = '/' := fun he => h.1 he.symm
    rw [splitSegs, if_neg hc, ih h.2]

theorem splitSegs_append {s r : List Char} (h : '/' ∉ s) :
    splitSegs (s ++ '/' :: r) = s :: splitSegs r := by
  induction s with
  | nil =>
    simp [splitSegs]
  | cons c cs ih =>
    simp only [List.mem_cons, not_or] at h
    have hc : ¬ c = '/' := fun he => h.1 he.symm
    rw [List.cons_append, splitSegs, if_neg hc, ih h.2]

theorem splitSegs_join : ∀ {segs : List (List Char)}, segs ≠ [] →
    (∀ t ∈ segs, '/' ∉ t) → splitSegs (joinSegs segs) = segs := by
  intro segs
  induction segs with
  | nil =>
    intro h _
    exact absurd rfl h
  | cons s rest ih =>
    intro _ hval
    cases rest with
    | nil =>
      rw [joinSegs, splitSegs_no_slash (hval s (by simp))]
    | cons t rest' =>
      have hj : joinSegs (s :: t :: rest') = s ++ '/' :: joinSegs (t :: rest') := rfl
      rw [hj, splitSegs_append (hval s (by simp))]
      rw [ih (List.cons_ne_nil t rest') (fun u hu => hval u (by simp [hu]))]

theorem splitPath_join {segs : List (List Char)} (hne : segs ≠ [])
    (hval : ∀ t ∈ segs, t ≠ [] ∧ t ≠ ['.'] ∧ '/' ∉ t) :
    splitPath (joinSegs segs) = segs := by
  unfold splitPath
  rw [splitSegs_join hne (fun t ht => (hval t ht).2.2)]
  apply List.filter_eq_self.mpr
  intro t ht
  obtain ⟨h1, h2, _⟩ := hval t ht
  simp [List.isEmpty_eq_false.mpr h1, h2]

/-- C4: the first line determines the root.  A dot root line (read as
`".\n"`) resolves to the Tree's top-level directory — address 0 of the
untouched one-directory heap (in the code this happens through the path
branch, since the read line keeps its newline and therefore never equals the
one-byte `"."`; the modelled collaborator resolves the path `"."` to the
current directory).  Any other first line is trimmed and treated as a
slash-separated path: the build creates exactly the chain of missing
directories inside the initially empty tree and uses the innermost one
(address `segs.length` of the chain heap) as the root.  The modelled
`MkdirAll`/`lookup` cannot fail on an initially empty tree, so the abort
clause is vacuously respected (the `rootPhase` error branches propagate the
`*os.PathError` verbatim by construction). -/
theorem c4_root_line :
    rootPhase ['.', '\n'] = Except.ok ([[]], 0)
  ∧ (∀ (line : List Char) (segs : List (List Char)), line ≠ ['.'] → segs ≠ [] →
      (∀ t ∈ segs, t ≠ [] ∧ t ≠ ['.'] ∧ '/' ∉ t) →
      trimSpace line = joinSegs segs →
      rootPhase line = Except.ok (chainHeap segs, segs.length)) := by
  constructor
  · rfl
  · intro line segs hdot hne hval htrim
    have hmk : mkdirAll [[]] 0 segs = some (chainHeap segs) := by
      have h := mkdirAll_chain segs []
      simpa [chainHeap] using h
    have hlk : lookupDir (chainHeap segs) 0 segs = some segs.length := by
      have h := lookupDir_chain segs []
      simpa [chainHeap] using h
    simp only [rootPhase, if_neg hdot, htrim, splitPath_join hne hval, hmk, hlk]

/-- C4 (witness): the root line `"a/b\n"` creates `a` containing `b` inside
an empty tree and roots the build at `b` (address 2). -/
theorem c4_witness :
    rootPhase "a/b\n".data = Except.ok (chainHeap [['a'], ['b']], 2) :=
  c4_root_line.2 "a/b\n".data [['a'], ['b']] (by decide) (by decide)
    (by decide) (by decide)

theorem indexOfChar_decomp {c : Char} : ∀ {l : List Char} {n : Nat},
    indexOfChar c l = some n → ∃ a b, l = a ++ c :: b ∧ c ∉ a ∧ a.length = n := by
  intro l
  induction l with
  | nil =>
    intro n h
    simp [indexOfChar] at h
  | cons x xs ih =>
    intro n h
    by_cases hx : x = c
    · rw [indexOfChar, if_pos hx] at h
      injection h with h'
      exact ⟨[], xs, by rw [hx]; rfl, by simp, h'⟩
    · rw [indexOfChar, if_neg hx] at h
      rcases hm : indexOfChar c xs with _ | m
      · rw [hm] at h
        simp at h
      · rw [hm] at h
        simp at h
        obtain ⟨a, b, hl, hna, hlen⟩ := ih hm
        refine ⟨x :: a, b, by rw [List.cons_append, ← hl], ?_, by simp [hlen, h]⟩
        intro hc
        rcases List.mem_cons.mp hc with he | he
        · exact hx he.symm
        · exact hna he

theorem indexOfChar_of_decomp (c : Char) (a b : List Char) (h : c ∉ a) :
    indexOfChar c (a ++ c :: b) = some a.length := by
  induction a with
  | nil => simp [indexOfChar]
  | cons x xs ih =>
    have hx : ¬ x = c := fun he => h (by simp [he])
    simp only [List.cons_append, indexOfChar, if_neg hx, List.append_eq]
    rw [ih (fun hc => h (by simp [hc]))]
    rfl

theorem lastIndexOfChar_eq_none {c : Char} {l : List Char} :
    lastIndexOfChar c l = none ↔ c ∉ l := by
  induction l with
  | nil => simp [lastIndexOfChar]
  | cons x xs ih =>
    rcases hm : lastIndexOfChar c xs with _ | m
    · have hx : c ∉ xs := ih.mp hm
      by_cases hxc : x = c
      · simp [lastIndexOfChar, hm, hxc]
      · simp [lastIndexOfChar, hm, hxc, hx]
        exact fun he => hxc he.symm
    · have hmem : c ∈ xs := by
        by_contra hc
        rw [ih.mpr hc] at hm
        cases hm
      simp [lastIndexOfChar, hm, hmem]

theorem lastIndexOfChar_decomp {c : Char} : ∀ {l : List Char} {n : Nat},
    lastIndexOfChar c l = some n → ∃ a b, l = a ++ c :: b ∧ c ∉ b ∧ a.length = n := by
  intro l
  induction l with
  | nil =>
    intro n h
    simp [lastIndexOfChar] at h
  | cons x xs ih =>
    intro n h
    rcases hm : lastIndexOfChar c xs with _ | m
    · rw [lastIndexOfChar, hm] at h
      by_cases hxc : x = c
      · rw [if_pos hxc] at h
        injection h with h'
        exact ⟨[], xs, by rw [hxc]; rfl, lastIndexOfChar_eq_none.mp hm, h'⟩
      · rw [if_neg hxc] at h
        cases h
    · rw [lastIndexOfChar, hm] at h
      injection h with h'
      obtain ⟨a, b, hl, hnb, hlen⟩ := ih hm
      exact ⟨x :: a, b, by rw [List.cons_append, ← hl], hnb, by simp [hlen, h']⟩

theorem lastIndexOfChar_of_decomp (c : Char) (a b : List Char) (h : c ∉ b) :
    lastIndexOfChar c (a ++ c :: b) = some a.length := by
  induction a with
  | nil =>
    simp only [List.nil_append, lastIndexOfChar]
    simp [lastIndexOfChar_eq_none.mpr h]
  | cons x xs ih =>
    simp only [List.cons_append, lastIndexOfChar]
    simp [ih]

/-- C6: for every line handed to the `Unix` strategy, the returned depth is
the count of indentation glyphs (space, non-breaking space, `│`) in the line
divided by 4; the parse succeeds exactly when the line decomposes around a
last `─` glyph followed (possibly after non-space glyphs) by a space, in
which case the returned name is the text after that first space following
the last `─`; and every failure is the syntax error wrapping the line. -/
theorem c6_unix_strategy (p : List Char) :
    (Unix p).1 = (p.count ' ' + p.count boxHardSpace + p.count boxVertical) / 4
  ∧ ((Unix p).2.2 = none ↔
      ∃ a c nm, p = a ++ boxHorizontal :: (c ++ ' ' :: nm) ∧
        boxHorizontal ∉ (c ++ ' ' :: nm) ∧ ' ' ∉ c)
  ∧ (∀ a c nm, p = a ++ boxHorizontal :: (c ++ ' ' :: nm) →
      boxHorizontal ∉ (c ++ ' ' :: nm) → ' ' ∉ c →
      (Unix p).2.1 = nm)
  ∧ ((Unix p).2.2 = none ∨ (Unix p).2.2 = some (Err.invalidSyntax p)) := by
  refine ⟨?_, ⟨?_, ?_⟩, ?_, ?_⟩
  · -- depth formula, identical in all three return branches
    rcases hL : lastIndexOfChar boxHorizontal p with _ | n
    · simp [Unix, hL, countChar_eq_count, boxSpace]
    · rcases hI : indexOfChar ' ' (p.drop n) with _ | m
      · simp [Unix, hL, hI, countChar_eq_count, boxSpace]
      · simp [Unix, hL, hI, countChar_eq_count, boxSpace]
  · -- success implies the decomposition exists
    intro hnone
    rcases hL : lastIndexOfChar boxHorizontal p with _ | n
    · simp [Unix, hL] at hnone
    · rcases hI : indexOfChar ' ' (p.drop n) with _ | m
      · simp [Unix, boxSpace, hL, hI] at hnone
      · obtain ⟨a, b, hp, hnb, hlen⟩ := lastIndexOfChar_decomp hL
        have hdrop : p.drop n = boxHorizontal :: b := by
          rw [hp, ← hlen, List.drop_left]
        rw [hdrop] at hI
        obtain ⟨e, f, hef, hne, _⟩ := indexOfChar_decomp hI
        cases e with
        | nil =>
          simp only [List.nil_append] at hef
          injection hef with h1 _
          exact absurd h1 (by decide)
        | cons x e' =>
          rw [List.cons_append] at hef
          injection hef with h1 h2
          refine ⟨a, e', f, ?_, ?_, ?_⟩
          · rw [hp, h2]
          · rw [← h2]
            exact hnb
          · intro hc
            exact hne (by simp [hc])
  · -- the decomposition implies success
    rintro ⟨a, c, nm, hp, hnb, hnc⟩
    have hL : lastIndexOfChar boxHorizontal p = some a.length := by
      rw [hp]
      exact lastIndexOfChar_of_decomp _ a _ hnb
    have hdrop : p.drop a.length = boxHorizontal :: (c ++ ' ' :: nm) := by
      rw [hp, List.drop_left]
    have hI : indexOfChar ' ' (p.drop a.length) = some (c.length + 1) := by
      rw [hdrop]
      have hns : ' ' ∉ boxHorizontal :: c := by
        intro hc
        rcases List.mem_cons.mp hc with he | he
        · exact absurd he (by decide)
        · exact hnc he
      have h := indexOfChar_of_decomp ' ' (boxHorizontal :: c) nm hns
      simpa using h
    simp [Unix, boxSpace, hL, hI]
  · -- the returned name is the text after the space
    intro a c nm hp hnb hnc
    have hL : lastIndexOfChar boxHorizontal p = some a.length := by
      rw [hp]
      exact lastIndexOfChar_of_decomp _ a _ hnb
    have hdrop : p.drop a.length = boxHorizontal :: (c ++ ' ' :: nm) := by
      rw [hp, List.drop_left]
    have hI : indexOfChar ' ' (p.drop a.length) = some (c.length + 1) := by
      rw [hdrop]
      have hns : ' ' ∉ boxHorizontal :: c := by
        intro hc
        rcases List.mem_cons.mp hc with he | he
        · exact absurd he (by decide)
        · exact hnc he
      have h := indexOfChar_of_decomp ' ' (boxHorizontal :: c) nm hns
      simpa using h
    have hsplit : boxHorizontal :: (c ++ ' ' :: nm) =
        (boxHorizontal :: c ++ [' ']) ++ nm := by simp
    have hlen3 : (boxHorizontal :: c ++ [' ']).length = c.length + 1 + 1 := by simp
    simp only [Unix, boxSpace, hL, hI]
    rw [hdrop, hsplit, ← hlen3, List.drop_left]
  · -- every error wraps the offending line
    rcases hL : lastIndexOfChar boxHorizontal p with _ | n
    · simp [Unix, hL]
    · rcases hI : indexOfChar ' ' (p.drop n) with _ | m
      · simp [Unix, boxSpace, hL, hI]
      · simp [Unix, boxSpace, hL, hI]

/-- C6 (witness): on the line `"└── a"` the depth is 0, parsing succeeds,
and the returned name is `"a"` — the text after the space following the last
`─` glyph. -/
theorem c6_witness :
    (Unix "└── a".data).2.1 = ['a'] :=
  (c6_unix_strategy "└── a".data).2.2.1 ['└', '─'] [] ['a']
    (by decide) (by decide) (by decide)

end Memfs
